import Mathlib

/-!
Verification of the AAMVA record codec of `src/pdf417_decoder.py`.

The Python functions `parse_aamva` and (the record-serialization step of)
`generate_barcode` are embedded as pure Lean functions over `List Char`
payloads and association-list records, and the spec's claims about them are
proved or refuted below.
-/

set_option maxRecDepth 4000

/-- Line-terminator test: the characters excluded by the regex character class
used in `parse_aamva` of src/pdf417_decoder.py (pattern `tag([^\n\r]+)`). -/
def isCRLF (c : Char) : Bool := c = '\n' || c = '\r'

/-- Whitespace test modelling Python's `str.strip` default character set, the
full set of code points `str.isspace` accepts: tab, LF, VT, FF, CR, FS, GS,
RS, US, space, NEL, NBSP, the Ogham space mark, the U+2000 to U+200A spaces,
the line and paragraph separators, the narrow no-break space, the medium
mathematical space and the ideographic space. -/
def pyIsSpace (c : Char) : Bool :=
  c = ' ' || c = '\t' || c = '\n' || c = '\r' || c = '\x0b' || c = '\x0c' ||
  c = '\x1c' || c = '\x1d' || c = '\x1e' || c = '\x1f' || c = '\x85' || c = '\xa0' ||
  c = '\u1680' || c = '\u2000' || c = '\u2001' || c = '\u2002' || c = '\u2003' ||
  c = '\u2004' || c = '\u2005' || c = '\u2006' || c = '\u2007' || c = '\u2008' ||
  c = '\u2009' || c = '\u200a' || c = '\u2028' || c = '\u2029' || c = '\u202f' ||
  c = '\u205f' || c = '\u3000'

/-- Python `str.strip()`: remove leading and trailing whitespace. -/
def pyStrip (l : List Char) : List Char :=
  ((l.dropWhile pyIsSpace).reverse.dropWhile pyIsSpace).reverse

/-- One regex match attempt at the current position: the pattern `key([^\n\r]+)`
matches here iff `key` starts here and at least one non-terminator character
follows it. -/
def validMatch0 (key s : List Char) : Bool :=
  key.isPrefixOf s &&
    match (s.drop key.length).head? with
    | some c => !isCRLF c
    | none => false

/-- `re.search` of the pattern `key([^\n\r]+)` as used by `parse_aamva` of
src/pdf417_decoder.py: try the positions left to right and return group 1
(the greedy run of non-terminator characters after the key) of the leftmost
match. -/
def reSearchTag (key : List Char) : List Char → Option (List Char)
  | [] => none
  | c :: rest =>
    if validMatch0 key (c :: rest) then
      some (((c :: rest).drop key.length).takeWhile fun ch => !isCRLF ch)
    else reSearchTag key rest

/-- Python dict assignment `d[k] = v`: replace in place when the key exists,
append otherwise. -/
def dictInsert (d : List (String × String)) (k v : String) : List (String × String) :=
  match d with
  | [] => [(k, v)]
  | (k', v') :: rest => if k' = k then (k, v) :: rest else (k', v') :: dictInsert rest k v

/-- Python dict lookup; a dict's keys are unique, the first binding wins. -/
def recLookup (d : List (String × String)) (k : String) : Option String :=
  match d with
  | [] => none
  | (k', v) :: rest => if k' = k then some v else recLookup rest k

/-- Body of the loop of `parse_aamva` (src/pdf417_decoder.py lines 70-77):
search the payload for the tag and, on a match, store the stripped group
under the field name. -/
def parse_step (data : List Char) (acc : List (String × String)) (kv : String × String) :
    List (String × String) :=
  match reSearchTag kv.1.data data with
  | some g => dictInsert acc kv.2 (String.mk (pyStrip g))
  | none => acc

/-- `parse_aamva(data, fields)` of src/pdf417_decoder.py: iterate the field
mapping in order, recording the stripped first-match value of each tag. -/
def parse_aamva (data : List Char) (fields : List (String × String)) :
    List (String × String) :=
  fields.foldl (parse_step data) []

/-- `SIMPLE_FIELDS` of src/pdf417_decoder.py, in insertion order. -/
def SIMPLE_FIELDS : List (String × String) := [
  ("DCS", "LastName"), ("DAC", "FirstName"), ("DAD", "MiddleName"),
  ("DBB", "DOB"), ("DBA", "ExpirationDate"), ("DAQ", "LicenseNumber"),
  ("DAG", "Address"), ("DAI", "City"), ("DAJ", "State"), ("DAK", "ZipCode")]

/-- The entries `FULL_FIELDS` of src/pdf417_decoder.py adds to `SIMPLE_FIELDS`. -/
def EXTRA_FIELDS : List (String × String) := [
  ("DAY", "EyeColor"), ("DAU", "Height"), ("DBC", "Sex"), ("DCG", "Country"),
  ("DBD", "IssueDate"), ("DCF", "DocumentDiscriminator"), ("DCK", "InventoryControlNumber"),
  ("DDE", "ComplianceType"), ("DDF", "CardRevisionDate"), ("DDG", "HazmatEndorsement"),
  ("DDH", "LimitedTermIndicator"), ("DCU", "NameSuffix"), ("DDC", "MedicalIndicator"),
  ("DDD", "NonResidentIndicator"), ("DLD", "IDType"), ("DCB", "RestrictionsCode"),
  ("DCD", "ClassificationCode"), ("DDB", "RecordCreationDate"), ("DDA", "AuditInformation"),
  ("DCA", "VehicleClass"), ("ZVZ", "SecurityData")]

/-- `FULL_FIELDS` of src/pdf417_decoder.py: the dict merge of `SIMPLE_FIELDS`
with the extra entries; the key sets are disjoint, so the merged dict is the
concatenation in insertion order. -/
def FULL_FIELDS : List (String × String) := SIMPLE_FIELDS ++ EXTRA_FIELDS

/-- The line list built by `generate_barcode` (src/pdf417_decoder.py lines
156-161): one line `code ++ value` per `FULL_FIELDS` entry whose field is
present in the record, in schema order. -/
def aamva_lines (fields : List (String × String)) (data : List (String × String)) :
    List String :=
  fields.filterMap fun cf =>
    match recLookup data cf.2 with
    | some v => some (cf.1 ++ v)
    | none => none

/-- Separator join with a line feed, as Python's join on a newline string. -/
def joinCR : List (List Char) → List Char
  | [] => []
  | [l] => l
  | l :: l' :: ls => l ++ '\n' :: joinCR (l' :: ls)

/-- The AAMVA payload text built by `generate_barcode`: the newline join of
the field lines. -/
def generate_aamva_data (data : List (String × String)) : List Char :=
  joinCR ((aamva_lines FULL_FIELDS data).map String.data)

/-- The missing-field check of `generate_barcode` (src/pdf417_decoder.py lines
151-154): schema fields absent from the record; the source only logs a warning
for these and proceeds. -/
def missing_fields (data : List (String × String)) : List String :=
  FULL_FIELDS.filterMap fun cf =>
    if (recLookup data cf.2).isSome then none else some cf.2

/-- Modelled from the spec: the spec's error taxonomy names a
`MissingRequiredField` error for an optional strict mode; src/pdf417_decoder.py
defines no such error and no such flag. -/
inductive GenError
  | MissingRequiredField (fields : List String)

/-- The record-serialization step of `generate_barcode` (src/pdf417_decoder.py
lines 147-161; file handling and barcode rendering are external): compute the
missing-field warning list and the payload. The source has no failing path in
this step, so the result is always `Except.ok`. -/
def generate_barcode_serialize (data : List (String × String)) :
    Except GenError (List String × List Char) :=
  Except.ok (missing_fields data, generate_aamva_data data)

/-- Proof auxiliary: leftmost tag match over a list of lines. -/
def searchLines (key : List Char) : List (List Char) → Option (List Char)
  | [] => none
  | l :: ls =>
    match reSearchTag key l with
    | some g => some g
    | none => searchLines key ls

/-- Substring occurrence test, used to state the spec's no-embedded-tag
precondition. -/
def containsSub (pat : List Char) : List Char → Bool
  | [] => pat.isPrefixOf []
  | c :: rest => pat.isPrefixOf (c :: rest) || containsSub pat rest

example : reSearchTag ("DCS".data) ("DADCSX".data) = some ("X".data) := by decide

example : parse_aamva ("DCSDOE".data) SIMPLE_FIELDS = [("LastName", "DOE")] := by decide

example : generate_aamva_data [("MiddleName", "CSX")] = "DADCSX".data := by decide

example : parse_aamva ("ZZZ999\nDCSDOE".data) FULL_FIELDS = [("LastName", "DOE")] := by
  decide

example :
    parse_aamva ("DCSDOE\nDCSSMITH".data) [("DCS", "LastName")] = [("LastName", "DOE")] := by
  decide

example : parse_aamva ("DCS DOE ".data) FULL_FIELDS = [("LastName", "DOE")] := by decide

example : pyStrip ("\u2000DOE\u3000".data) = "DOE".data := by decide

example :
    parse_aamva ("DCS\u2000DOE\nDCSX".data) [("DCS", "LastName")] = [("LastName", "DOE")] := by
  decide

example :
    parse_aamva ("DCS DOE\u3000".data) [("DCS", "LastName")] = [("LastName", "DOE")] := by
  decide

/-! ### Basic facts about single match attempts -/

theorem validMatch0_nil (key : List Char) : validMatch0 key [] = false := by
  cases key with
  | nil => rfl
  | cons p ps => rfl

theorem validMatch0_cons (p c : Char) (ps rest : List Char) :
    validMatch0 (p :: ps) (c :: rest) = ((p == c) && validMatch0 ps rest) := by
  simp only [validMatch0, List.isPrefixOf_cons₂, List.length_cons, List.drop_succ_cons,
    Bool.and_assoc]

theorem reSearchTag_cons (key : List Char) (c : Char) (rest : List Char) :
    reSearchTag key (c :: rest) =
      if validMatch0 key (c :: rest) then
        some (((c :: rest).drop key.length).takeWhile fun ch => !isCRLF ch)
      else reSearchTag key rest := rfl

theorem isPrefixOf_length_le {l s : List Char} (h : l.isPrefixOf s = true) :
    l.length ≤ s.length := by
  induction l generalizing s with
  | nil => simp
  | cons a as ih =>
    cases s with
    | nil => simp at h
    | cons b bs =>
      rw [List.isPrefixOf_cons₂, Bool.and_eq_true] at h
      simpa using Nat.succ_le_succ (ih h.2)

theorem isPrefixOf_take_eq {l s : List Char} (h : l.isPrefixOf s = true) :
    s.take l.length = l := by
  induction l generalizing s with
  | nil => simp
  | cons a as ih =>
    cases s with
    | nil => simp at h
    | cons b bs =>
      rw [List.isPrefixOf_cons₂, Bool.and_eq_true, beq_iff_eq] at h
      simp [h.1, ih h.2]

theorem isPrefixOf_append_self (l r : List Char) : l.isPrefixOf (l ++ r) = true := by
  induction l with
  | nil => simp
  | cons a as ih => simp [List.isPrefixOf_cons₂, ih]

theorem validMatch0_true_pref {pat s : List Char} (h : validMatch0 pat s = true) :
    pat.isPrefixOf s = true := by
  unfold validMatch0 at h
  rw [Bool.and_eq_true] at h
  exact h.1

theorem validMatch0_of_parts {pat s : List Char} (h1 : pat.isPrefixOf s = true)
    {c : Char} (h2 : (s.drop pat.length).head? = some c) (h3 : isCRLF c = false) :
    validMatch0 pat s = true := by
  unfold validMatch0
  rw [h1, h2]
  simp [h3]

/-! ### Appending further lines does not disturb a search -/

theorem validMatch0_append_newline {pat : List Char} (hpat : ∀ c ∈ pat, isCRLF c = false)
    (s R : List Char) : validMatch0 pat (s ++ '\n' :: R) = validMatch0 pat s := by
  induction pat generalizing s with
  | nil =>
    cases s with
    | nil => rfl
    | cons c s' => rfl
  | cons p ps ih =>
    cases s with
    | nil =>
      have hcr := hpat p (List.mem_cons_self p ps)
      have hp : (p == '\n') = false := by
        simp only [isCRLF, Bool.or_eq_false_iff, decide_eq_false_iff_not] at hcr
        exact beq_eq_false_iff_ne.mpr hcr.1
      rw [List.nil_append, validMatch0_cons, hp, Bool.false_and, validMatch0_nil]
    | cons c s' =>
      rw [List.cons_append, validMatch0_cons, validMatch0_cons,
        ih (fun x hx => hpat x (List.mem_cons_of_mem p hx)) s']

theorem reSearchTag_eq_none_iff (pat s : List Char) :
    reSearchTag pat s = none ↔ ∀ o, validMatch0 pat (s.drop o) = false := by
  induction s with
  | nil =>
    simp [reSearchTag, validMatch0_nil]
  | cons c rest ih =>
    rw [reSearchTag_cons]
    cases hv : validMatch0 pat (c :: rest) with
    | true =>
      rw [if_pos rfl]
      constructor
      · intro h; simp at h
      · intro h
        have h0 := h 0
        rw [List.drop_zero, hv] at h0
        exact absurd h0 (by simp)
    | false =>
      rw [if_neg (by simp), ih]
      constructor
      · intro h o
        cases o with
        | zero => simpa using hv
        | succ o' => simpa [List.drop_succ_cons] using h o'
      · intro h o
        simpa [List.drop_succ_cons] using h (o + 1)

theorem reSearchTag_append_newline_none {pat : List Char}
    (hpat : ∀ c ∈ pat, isCRLF c = false) (L R : List Char)
    (hL : reSearchTag pat L = none) :
    reSearchTag pat (L ++ '\n' :: R) = reSearchTag pat R := by
  induction L with
  | nil =>
    rw [List.nil_append, reSearchTag_cons]
    have hv : validMatch0 pat ('\n' :: R) = false := by
      have h := validMatch0_append_newline hpat [] R
      rw [List.nil_append] at h
      rw [h, validMatch0_nil]
    simp [hv]
  | cons c L' ih =>
    rw [reSearchTag_cons] at hL
    cases hv : validMatch0 pat (c :: L') with
    | true => rw [hv] at hL; simp at hL
    | false =>
      rw [hv] at hL
      simp only [Bool.false_eq_true, if_false] at hL
      rw [List.cons_append, reSearchTag_cons]
      have hv' : validMatch0 pat (c :: (L' ++ '\n' :: R)) = false := by
        have h := validMatch0_append_newline hpat (c :: L') R
        rw [List.cons_append] at h
        rw [h, hv]
      simp [hv', ih hL]

theorem reSearchTag_append_newline_some {pat L g : List Char}
    (hpat : ∀ c ∈ pat, isCRLF c = false)
    (hLfree : ∀ c ∈ L, isCRLF c = false) (R : List Char)
    (hL : reSearchTag pat L = some g) :
    reSearchTag pat (L ++ '\n' :: R) = some g := by
  induction L with
  | nil => simp [reSearchTag] at hL
  | cons c L' ih =>
    rw [reSearchTag_cons] at hL
    rw [List.cons_append, reSearchTag_cons]
    have heq := validMatch0_append_newline hpat (c :: L') R
    rw [List.cons_append] at heq
    cases hv : validMatch0 pat (c :: L') with
    | false =>
      rw [hv] at hL
      simp only [Bool.false_eq_true, if_false] at hL
      rw [heq, hv, if_neg (by simp)]
      exact ih (fun x hx => hLfree x (List.mem_cons_of_mem c hx)) hL
    | true =>
      rw [hv] at hL
      have hg : List.takeWhile (fun ch => !isCRLF ch) ((c :: L').drop pat.length) = g := by
        simpa using hL
      rw [heq, hv, if_pos rfl]
      have hlen : pat.length ≤ (c :: L').length :=
        isPrefixOf_length_le (validMatch0_true_pref hv)
      rw [show c :: (L' ++ '\n' :: R) = (c :: L') ++ '\n' :: R from rfl,
        List.drop_append_of_le_length hlen]
      have hall : ∀ a ∈ (c :: L').drop pat.length, (!isCRLF a) = true := by
        intro a ha
        simp [hLfree a (List.mem_of_mem_drop ha)]
      rw [List.takeWhile_append_of_pos hall]
      have hnl : List.takeWhile (fun ch => !isCRLF ch) ('\n' :: R) = [] := by
        simp [List.takeWhile_cons, isCRLF]
      rw [hnl, List.append_nil, ← hg]
      rw [List.takeWhile_eq_self_iff.mpr hall]

theorem reSearchTag_joinCR {pat : List Char} (hpat : ∀ c ∈ pat, isCRLF c = false)
    (lines : List (List Char)) (hlines : ∀ L ∈ lines, ∀ c ∈ L, isCRLF c = false) :
    reSearchTag pat (joinCR lines) = searchLines pat lines := by
  induction lines with
  | nil => rfl
  | cons L ls ih =>
    cases ls with
    | nil =>
      show reSearchTag pat L = searchLines pat [L]
      unfold searchLines
      cases h : reSearchTag pat L with
      | some g => rfl
      | none => rfl
    | cons L' ls' =>
      show reSearchTag pat (L ++ '\n' :: joinCR (L' :: ls')) = searchLines pat (L :: L' :: ls')
      unfold searchLines
      cases h : reSearchTag pat L with
      | some g =>
        exact reSearchTag_append_newline_some hpat (hlines L (by simp)) _ h
      | none =>
        rw [reSearchTag_append_newline_none hpat _ _ h]
        exact ih (fun M hM => hlines M (List.mem_cons_of_mem L hM))

theorem reSearchTag_self_append {pat v : List Char} (hp : pat ≠ [])
    (hv : v ≠ []) (hvfree : ∀ c ∈ v, isCRLF c = false) :
    reSearchTag pat (pat ++ v) = some v := by
  cases pat with
  | nil => exact absurd rfl hp
  | cons p ps =>
  cases v with
  | nil => exact absurd rfl hv
  | cons a v' =>
  have h2 : (((p :: ps) ++ a :: v').drop (p :: ps).length).head? = some a := by
    rw [List.drop_left]
    rfl
  have hcv : validMatch0 (p :: ps) ((p :: ps) ++ a :: v') = true :=
    validMatch0_of_parts (isPrefixOf_append_self _ _) h2 (hvfree a (List.mem_cons_self a v'))
  rw [List.cons_append] at hcv ⊢
  rw [reSearchTag_cons, if_pos hcv]
  rw [← List.cons_append, List.drop_left]
  congr 1
  exact List.takeWhile_eq_self_iff.mpr (by intro x hx; simp [hvfree x hx])

theorem reSearchTag_eq_of_first {pat : List Char} (d : List Char) (i : Nat)
    (hi : validMatch0 pat (d.drop i) = true)
    (hfirst : ∀ j < i, validMatch0 pat (d.drop j) = false) :
    reSearchTag pat d = some ((d.drop (i + pat.length)).takeWhile fun ch => !isCRLF ch) := by
  induction d generalizing i with
  | nil =>
    rw [List.drop_nil, validMatch0_nil] at hi
    exact absurd hi (by simp)
  | cons c rest ih =>
    cases i with
    | zero =>
      rw [List.drop_zero] at hi
      rw [reSearchTag_cons, if_pos hi, Nat.zero_add]
    | succ i' =>
      have h0 : validMatch0 pat (c :: rest) = false := by
        have h := hfirst 0 (Nat.succ_pos i')
        rwa [List.drop_zero] at h
      rw [reSearchTag_cons, if_neg (by simp [h0])]
      have hi' : validMatch0 pat (rest.drop i') = true := by
        rwa [List.drop_succ_cons] at hi
      have hfirst' : ∀ j < i', validMatch0 pat (rest.drop j) = false := by
        intro j hj
        have h := hfirst (j + 1) (Nat.succ_lt_succ hj)
        rwa [List.drop_succ_cons] at h
      have harith : i' + 1 + pat.length = (i' + pat.length) + 1 := by omega
      rw [harith, List.drop_succ_cons]
      exact ih i' hi' hfirst'

theorem reSearchTag_run_free {pat d g : List Char} (h : reSearchTag pat d = some g) :
    ∀ c ∈ g, isCRLF c = false := by
  induction d with
  | nil => simp [reSearchTag] at h
  | cons c rest ih =>
    rw [reSearchTag_cons] at h
    cases hv : validMatch0 pat (c :: rest) with
    | true =>
      rw [hv, if_pos rfl, Option.some_inj] at h
      intro x hx
      rw [← h] at hx
      have hm := List.mem_takeWhile_imp hx
      simpa using hm
    | false =>
      rw [hv, if_neg (by simp)] at h
      exact ih h

/-! ### Dictionary operations -/

theorem recLookup_dictInsert_self (d : List (String × String)) (k v : String) :
    recLookup (dictInsert d k v) k = some v := by
  induction d with
  | nil => simp [dictInsert, recLookup]
  | cons p rest ih =>
    obtain ⟨k', v'⟩ := p
    by_cases h : k' = k
    · simp [dictInsert, h, recLookup]
    · simp [dictInsert, h, recLookup, ih]

theorem recLookup_dictInsert_ne (d : List (String × String)) (k v n : String)
    (h : k ≠ n) : recLookup (dictInsert d k v) n = recLookup d n := by
  induction d with
  | nil => simp [dictInsert, recLookup, h]
  | cons p rest ih =>
    obtain ⟨k', v'⟩ := p
    by_cases hk : k' = k
    · subst hk
      simp [dictInsert, recLookup, h]
    · simp [dictInsert, hk, recLookup, ih]

theorem mem_dictInsert {d : List (String × String)} {k v : String} {p : String × String}
    (h : p ∈ dictInsert d k v) : p = (k, v) ∨ p ∈ d := by
  induction d with
  | nil => simpa [dictInsert] using h
  | cons q rest ih =>
    obtain ⟨k', v'⟩ := q
    by_cases hk : k' = k
    · rw [show dictInsert ((k', v') :: rest) k v = (k, v) :: rest by simp [dictInsert, hk]] at h
      rcases List.mem_cons.mp h with h | h
      · exact Or.inl h
      · exact Or.inr (List.mem_cons_of_mem _ h)
    · rw [show dictInsert ((k', v') :: rest) k v = (k', v') :: dictInsert rest k v by
        simp [dictInsert, hk]] at h
      rcases List.mem_cons.mp h with h | h
      · exact Or.inr (by simp [h])
      · rcases ih h with h' | h'
        · exact Or.inl h'
        · exact Or.inr (List.mem_cons_of_mem _ h')

theorem recLookup_some_mem {d : List (String × String)} {k v : String}
    (h : recLookup d k = some v) : (k, v) ∈ d := by
  induction d with
  | nil => simp [recLookup] at h
  | cons q rest ih =>
    obtain ⟨k', v'⟩ := q
    by_cases hk : k' = k
    · subst hk
      rw [show recLookup ((k', v') :: rest) k' = some v' by simp [recLookup]] at h
      rw [Option.some_inj] at h
      simp [h]
    · rw [show recLookup ((k', v') :: rest) k = recLookup rest k by simp [recLookup, hk]] at h
      exact List.mem_cons_of_mem _ (ih h)

/-! ### The parse loop -/

theorem parse_foldl_untouched (d : List Char) :
    ∀ (fields : List (String × String)) (acc : List (String × String)) (n : String),
      n ∉ fields.map Prod.snd →
      recLookup (fields.foldl (parse_step d) acc) n = recLookup acc n := by
  intro fields
  induction fields with
  | nil => intro acc n _; rfl
  | cons kv rest ih =>
    intro acc n hn
    rw [List.foldl_cons]
    have hn' : n ∉ rest.map Prod.snd := fun h => hn (by simp [h])
    rw [ih _ n hn']
    unfold parse_step
    cases reSearchTag kv.1.data d with
    | some g =>
      have hne : kv.2 ≠ n := fun h => hn (by simp [← h])
      exact recLookup_dictInsert_ne acc kv.2 _ n hne
    | none => rfl

theorem parse_foldl_lookup (d : List Char) :
    ∀ (fields : List (String × String)) (acc : List (String × String)) (key name : String),
      (fields.map Prod.snd).Nodup → (key, name) ∈ fields → recLookup acc name = none →
      recLookup (fields.foldl (parse_step d) acc) name =
        (reSearchTag key.data d).map fun g => String.mk (pyStrip g) := by
  intro fields
  induction fields with
  | nil => intro acc key name _ hmem _; simp at hmem
  | cons kv rest ih =>
    intro acc key name hnodup hmem hacc
    rw [List.map_cons, List.nodup_cons] at hnodup
    rw [List.foldl_cons]
    rcases List.mem_cons.mp hmem with heq | htail
    · have hk1 : kv.1 = key := by rw [← heq]
      have hk2 : kv.2 = name := by rw [← heq]
      rw [parse_foldl_untouched d rest _ name (hk2 ▸ hnodup.1)]
      unfold parse_step
      rw [hk1, hk2]
      cases h : reSearchTag key.data d with
      | some g => simp [recLookup_dictInsert_self]
      | none => simpa using hacc
    · have hname : kv.2 ≠ name := by
        intro h
        exact hnodup.1 (h ▸ List.mem_map.mpr ⟨(key, name), htail, rfl⟩)
      have hacc' : recLookup (parse_step d acc kv) name = none := by
        unfold parse_step
        cases reSearchTag kv.1.data d with
        | some g => rw [recLookup_dictInsert_ne _ _ _ _ hname]; exact hacc
        | none => exact hacc
      exact ih (parse_step d acc kv) key name hnodup.2 htail hacc'

theorem parse_aamva_lookup (d : List Char) (fields : List (String × String))
    (key name : String) (hnodup : (fields.map Prod.snd).Nodup)
    (hmem : (key, name) ∈ fields) :
    recLookup (parse_aamva d fields) name =
      (reSearchTag key.data d).map fun g => String.mk (pyStrip g) :=
  parse_foldl_lookup d fields [] key name hnodup hmem rfl

theorem parse_foldl_inv (d : List Char) (Q : String × String → Prop) :
    ∀ (fields acc : List (String × String)), (∀ q ∈ acc, Q q) →
      (∀ kv ∈ fields, ∀ g, reSearchTag kv.1.data d = some g →
        Q (kv.2, String.mk (pyStrip g))) →
      ∀ p ∈ fields.foldl (parse_step d) acc, Q p := by
  intro fields
  induction fields with
  | nil => intro acc hacc _ p hp; exact hacc p hp
  | cons kv rest ih =>
    intro acc hacc hf p hp
    rw [List.foldl_cons] at hp
    refine ih (parse_step d acc kv) ?_ (fun kv' h' => hf kv' (List.mem_cons_of_mem kv h')) p hp
    intro q hq
    unfold parse_step at hq
    cases h : reSearchTag kv.1.data d with
    | some g =>
      rw [h] at hq
      rcases mem_dictInsert hq with rfl | hq'
      · exact hf kv (List.mem_cons_self kv rest) g h
      · exact hacc q hq'
    | none =>
      rw [h] at hq
      exact hacc q hq

theorem parse_aamva_keys (d : List Char) (fields : List (String × String)) :
    ∀ p ∈ parse_aamva d fields, p.1 ∈ fields.map Prod.snd := by
  intro p hp
  refine parse_foldl_inv d (fun q => q.1 ∈ fields.map Prod.snd) fields [] (by simp) ?_ p hp
  intro kv hkv g _
  exact List.mem_map.mpr ⟨kv, hkv, rfl⟩

theorem parse_aamva_lookup_none (d : List Char) (fields : List (String × String))
    (name : String) (hn : name ∉ fields.map Prod.snd) :
    recLookup (parse_aamva d fields) name = none := by
  cases h : recLookup (parse_aamva d fields) name with
  | none => rfl
  | some v =>
    have hm := recLookup_some_mem h
    exact absurd (parse_aamva_keys d fields (name, v) hm) hn

/-! ### Properties of stripping -/

theorem dropWhile_head_not {p : Char → Bool} :
    ∀ {l : List Char} {c : Char}, (l.dropWhile p).head? = some c → p c = false := by
  intro l
  induction l with
  | nil => intro c h; simp [List.dropWhile] at h
  | cons a as ih =>
    intro c h
    rw [List.dropWhile_cons] at h
    by_cases hp : p a = true
    · rw [if_pos hp] at h
      exact ih h
    · rw [if_neg hp] at h
      rw [List.head?_cons, Option.some_inj] at h
      subst h
      simpa using hp

theorem dropWhile_eq_drop (p : Char → Bool) :
    ∀ l : List Char, ∃ k, l.dropWhile p = l.drop k := by
  intro l
  induction l with
  | nil => exact ⟨0, rfl⟩
  | cons a as ih =>
    by_cases hp : p a = true
    · obtain ⟨k, hk⟩ := ih
      exact ⟨k + 1, by rw [List.dropWhile_cons, if_pos hp, List.drop_succ_cons, hk]⟩
    · exact ⟨0, by rw [List.dropWhile_cons, if_neg hp, List.drop_zero]⟩

theorem mem_dropWhile_sub {p : Char → Bool} {l : List Char} {c : Char}
    (h : c ∈ l.dropWhile p) : c ∈ l := by
  obtain ⟨k, hk⟩ := dropWhile_eq_drop p l
  rw [hk] at h
  exact List.mem_of_mem_drop h

theorem mem_pyStrip {l : List Char} {c : Char} (h : c ∈ pyStrip l) : c ∈ l := by
  unfold pyStrip at h
  rw [List.mem_reverse] at h
  have h1 := mem_dropWhile_sub h
  rw [List.mem_reverse] at h1
  exact mem_dropWhile_sub h1

theorem getLast?_drop_some {w : List Char} {k : Nat} {c : Char}
    (h : (w.drop k).getLast? = some c) : w.getLast? = some c := by
  induction w generalizing k with
  | nil => rw [List.drop_nil] at h; exact h
  | cons a w' ih =>
    cases k with
    | zero => rwa [List.drop_zero] at h
    | succ k' =>
      rw [List.drop_succ_cons] at h
      have h' := ih h
      cases w' with
      | nil => simp at h'
      | cons b w'' =>
        rw [List.getLast?_cons_cons]
        exact h'

theorem pyStrip_head_not {l : List Char} {c : Char} (h : (pyStrip l).head? = some c) :
    pyIsSpace c = false := by
  unfold pyStrip at h
  rw [List.head?_reverse] at h
  obtain ⟨k, hk⟩ := dropWhile_eq_drop pyIsSpace (l.dropWhile pyIsSpace).reverse
  rw [hk] at h
  have h2 := getLast?_drop_some h
  rw [List.getLast?_reverse] at h2
  exact dropWhile_head_not h2

theorem pyStrip_getLast_not {l : List Char} {c : Char}
    (h : (pyStrip l).getLast? = some c) : pyIsSpace c = false := by
  unfold pyStrip at h
  rw [List.getLast?_reverse] at h
  exact dropWhile_head_not h

/-! ### Remaining auxiliaries -/

theorem parse_foldl_all_none (d : List Char) :
    ∀ (fields : List (String × String)) (acc : List (String × String)),
      (∀ kv ∈ fields, reSearchTag kv.1.data d = none) →
      fields.foldl (parse_step d) acc = acc := by
  intro fields
  induction fields with
  | nil => intro acc _; rfl
  | cons kv rest ih =>
    intro acc hall
    rw [List.foldl_cons]
    have hkv := hall kv (List.mem_cons_self kv rest)
    have hstep : parse_step d acc kv = acc := by
      unfold parse_step
      rw [hkv]
    rw [hstep]
    exact ih acc fun kv' h' => hall kv' (List.mem_cons_of_mem kv h')

theorem aamva_lines_ext :
    ∀ (fields d1 d2 : List (String × String)),
      (∀ cf ∈ fields, recLookup d1 cf.2 = recLookup d2 cf.2) →
      aamva_lines fields d1 = aamva_lines fields d2 := by
  intro fields
  induction fields with
  | nil => intro d1 d2 _; rfl
  | cons cf rest ih =>
    intro d1 d2 h
    have hcf := h cf (List.mem_cons_self cf rest)
    have ih' := ih d1 d2 fun cf' h' => h cf' (List.mem_cons_of_mem cf h')
    unfold aamva_lines at ih' ⊢
    rw [List.filterMap_cons, List.filterMap_cons, ih', hcf]

theorem aamva_lines_shape :
    ∀ (fields data : List (String × String)),
      aamva_lines fields data =
        (fields.filter fun cf => (recLookup data cf.2).isSome).map
          fun cf => cf.1 ++ (recLookup data cf.2).getD "" := by
  intro fields data
  induction fields with
  | nil => rfl
  | cons cf rest ih =>
    unfold aamva_lines at ih ⊢
    rw [List.filterMap_cons, List.filter_cons]
    cases hl : recLookup data cf.2 with
    | some v => simp [hl, ih]
    | none => simp [hl, ih]

/-! ### Claims -/

/-- C2 counterexample: parsing the payload with the unknown tag ZZZ999 alongside
DCSDOE yields a record containing only LastName; the unknown tag and its value
are dropped, not kept as an opaque pair, so the claim as stated is false. -/
theorem c2_counterexample :
    parse_aamva ("ZZZ999\nDCSDOE".data) FULL_FIELDS = [("LastName", "DOE")] ∧
      ∀ p ∈ parse_aamva ("ZZZ999\nDCSDOE".data) FULL_FIELDS, p.2 ≠ "999" := by
  decide

/-- C2 (amended): unknown tags are discarded by `parse_aamva`, which extracts
registered fields only: the payload with ZZZ999 alongside DCSDOE parses to
exactly LastName = "DOE", and re-serializing that record emits only the DCS
line, so the unknown pair does not reappear. -/
theorem c2_unknown_tag_dropped :
    parse_aamva ("ZZZ999\nDCSDOE".data) FULL_FIELDS = [("LastName", "DOE")] ∧
      generate_aamva_data (parse_aamva ("ZZZ999\nDCSDOE".data) FULL_FIELDS) =
        "DCSDOE".data := by
  decide

/-- C3 counterexample: with the tag DCS occurring twice in the payload,
`parse_aamva` keeps the value of the first occurrence ("DOE"), not of the last
one ("SMITH"), refuting the last-occurrence-wins claim. -/
theorem c3_counterexample :
    recLookup (parse_aamva ("DCSDOE\nDCSSMITH".data) [("DCS", "LastName")]) "LastName" =
        some "DOE" ∧
      recLookup (parse_aamva ("DCSDOE\nDCSSMITH".data) [("DCS", "LastName")]) "LastName" ≠
        some "SMITH" := by
  decide

/-- C3 (amended): when a registered tag has several valid occurrences in the
payload (each followed by a value before a line terminator), `parse_aamva`
assigns that tag's field the value of the FIRST occurrence found by the
left-to-right scan of `re.search`, not of the last. -/
theorem c3_first_occurrence_wins (d : List Char) (fields : List (String × String))
    (key name : String) (i i' : Nat)
    (hmem : (key, name) ∈ fields) (hnodup : (fields.map Prod.snd).Nodup)
    (hi : validMatch0 key.data (d.drop i) = true)
    (hfirst : ∀ j < i, validMatch0 key.data (d.drop j) = false)
    (hlt : i < i') (hi' : validMatch0 key.data (d.drop i') = true) :
    recLookup (parse_aamva d fields) name =
      some (String.mk (pyStrip
        ((d.drop (i + key.data.length)).takeWhile fun ch => !isCRLF ch))) := by
  rw [parse_aamva_lookup d fields key name hnodup hmem,
    reSearchTag_eq_of_first d i hi hfirst]
  rfl

theorem c3_witness :
    recLookup (parse_aamva ("DCSDOE\nDCSSMITH".data) [("DCS", "LastName")]) "LastName" =
      some (String.mk (pyStrip
        ((("DCSDOE\nDCSSMITH".data).drop (0 + ("DCS" : String).data.length)).takeWhile
          fun ch => !isCRLF ch))) :=
  c3_first_occurrence_wins ("DCSDOE\nDCSSMITH".data) [("DCS", "LastName")]
    "DCS" "LastName" 0 7 (by decide) (by decide) (by decide) (by decide)
    (by decide) (by decide)

/-- C4: if a registered tag occurs anywhere in the payload (substring search,
not only at line starts) followed by at least one character before the next
carriage return or line feed, `parse_aamva` maps that tag's field name to the
run of characters after the tag up to (excluding) the next line terminator,
trimmed of surrounding whitespace; the occurrence used is the leftmost one. -/
theorem c4_parse_maps_tag_run (d : List Char) (fields : List (String × String))
    (key name : String) (i : Nat)
    (hmem : (key, name) ∈ fields) (hnodup : (fields.map Prod.snd).Nodup)
    (hi : validMatch0 key.data (d.drop i) = true)
    (hfirst : ∀ j < i, validMatch0 key.data (d.drop j) = false) :
    recLookup (parse_aamva d fields) name =
      some (String.mk (pyStrip
        ((d.drop (i + key.data.length)).takeWhile fun ch => !isCRLF ch))) := by
  rw [parse_aamva_lookup d fields key name hnodup hmem,
    reSearchTag_eq_of_first d i hi hfirst]
  rfl

theorem c4_witness :
    recLookup (parse_aamva ("xxDCSDOE".data) FULL_FIELDS) "LastName" =
      some (String.mk (pyStrip
        ((("xxDCSDOE".data).drop (2 + ("DCS" : String).data.length)).takeWhile
          fun ch => !isCRLF ch))) :=
  c4_parse_maps_tag_run ("xxDCSDOE".data) FULL_FIELDS "DCS" "LastName" 2
    (by decide) (by decide) (by decide) (by decide)

/-- C5: serialization emits one line per field present in the record — the tag
code immediately followed by the value — in the canonical FULL_FIELDS schema
order; absent fields produce no line, and two records that agree as mappings on
the schema's field names serialize to the same text regardless of their
insertion order. -/
theorem c5_serialize_canonical (d1 d2 : List (String × String))
    (h : ∀ cf ∈ FULL_FIELDS, recLookup d1 cf.2 = recLookup d2 cf.2) :
    generate_aamva_data d1 = generate_aamva_data d2 ∧
      aamva_lines FULL_FIELDS d1 =
        (FULL_FIELDS.filter fun cf => (recLookup d1 cf.2).isSome).map
          fun cf => cf.1 ++ (recLookup d1 cf.2).getD "" := by
  constructor
  · unfold generate_aamva_data
    rw [aamva_lines_ext FULL_FIELDS d1 d2 h]
  · exact aamva_lines_shape FULL_FIELDS d1

theorem c5_witness :
    generate_aamva_data [("FirstName", "JOHN"), ("LastName", "SMITH")] =
        generate_aamva_data [("LastName", "SMITH"), ("FirstName", "JOHN")] ∧
      aamva_lines FULL_FIELDS [("FirstName", "JOHN"), ("LastName", "SMITH")] =
        (FULL_FIELDS.filter fun cf =>
            (recLookup [("FirstName", "JOHN"), ("LastName", "SMITH")] cf.2).isSome).map
          fun cf =>
            cf.1 ++ (recLookup [("FirstName", "JOHN"), ("LastName", "SMITH")] cf.2).getD "" :=
  c5_serialize_canonical [("FirstName", "JOHN"), ("LastName", "SMITH")]
    [("LastName", "SMITH"), ("FirstName", "JOHN")] (by decide)

/-- C6: the record-serialization step of `generate_barcode` never fails with
`MissingRequiredField` — the source defines no strictness flag to opt into, so
no call ever declares required fields — and by default every record, including
one missing any subset of the schema's fields, serializes successfully (the
missing fields only populate the warning list). -/
theorem c6_serialize_never_fails (data : List (String × String)) :
    (∀ e : GenError, generate_barcode_serialize data ≠ Except.error e) ∧
      generate_barcode_serialize data =
        Except.ok (missing_fields data, generate_aamva_data data) :=
  ⟨fun e h => by simp [generate_barcode_serialize] at h, rfl⟩

/-- C7: a payload in which no registered tag has a valid occurrence at any
position yields the empty record; `parse_aamva` is total in the embedding and
returns the empty mapping rather than an error. -/
theorem c7_no_tags_empty_record (d : List Char) (fields : List (String × String))
    (h : ∀ kv ∈ fields, ∀ i < d.length, validMatch0 kv.1.data (d.drop i) = false) :
    parse_aamva d fields = [] := by
  have hall : ∀ kv ∈ fields, reSearchTag kv.1.data d = none := by
    intro kv hkv
    rw [reSearchTag_eq_none_iff]
    intro o
    by_cases ho : o < d.length
    · exact h kv hkv o ho
    · rw [List.drop_eq_nil_of_le (Nat.le_of_not_lt ho), validMatch0_nil]
  exact parse_foldl_all_none d fields [] hall

theorem c7_witness : parse_aamva ("hello world".data) FULL_FIELDS = [] :=
  c7_no_tags_empty_record ("hello world".data) FULL_FIELDS (by decide)

/-- C8: the extended registry FULL_FIELDS contains every tag-to-name pair of the
minimal registry SIMPLE_FIELDS, and consequently the record parsed with
SIMPLE_FIELDS is a sub-mapping of the record parsed with FULL_FIELDS on every
payload. -/
theorem c8_registries_nest :
    (∀ p ∈ SIMPLE_FIELDS, p ∈ FULL_FIELDS) ∧
      ∀ (d : List Char) (name v : String),
        recLookup (parse_aamva d SIMPLE_FIELDS) name = some v →
        recLookup (parse_aamva d FULL_FIELDS) name = some v := by
  constructor
  · intro p hp
    exact List.mem_append_left EXTRA_FIELDS hp
  · intro d name v h
    have hname : name ∈ SIMPLE_FIELDS.map Prod.snd := by
      have hm := recLookup_some_mem h
      simpa using parse_aamva_keys d SIMPLE_FIELDS (name, v) hm
    have hnot : name ∉ EXTRA_FIELDS.map Prod.snd := by
      have hdisj : ∀ x ∈ SIMPLE_FIELDS.map Prod.snd, x ∉ EXTRA_FIELDS.map Prod.snd := by
        decide
      exact hdisj name hname
    calc recLookup (parse_aamva d FULL_FIELDS) name
        = recLookup (parse_aamva d SIMPLE_FIELDS) name := by
          unfold parse_aamva FULL_FIELDS
          rw [List.foldl_append]
          exact parse_foldl_untouched d EXTRA_FIELDS _ name hnot
      _ = some v := h

theorem c8_witness :
    recLookup (parse_aamva ("DCSDOE".data) FULL_FIELDS) "LastName" = some "DOE" :=
  c8_registries_nest.2 ("DCSDOE".data) "LastName" "DOE" (by decide)

/-- C9: the codec is deterministic and depends on nothing but its arguments —
equal payload and field-mapping arguments give equal parse results, and equal
records give equal serialized text; the embedded functions are pure, matching
the source, which reads only its arguments and the immutable field tables. -/
theorem c9_deterministic (d1 d2 : List Char) (f1 f2 : List (String × String))
    (hd : d1 = d2) (hf : f1 = f2) :
    parse_aamva d1 f1 = parse_aamva d2 f2 ∧
      ∀ r1 r2 : List (String × String), r1 = r2 →
        generate_aamva_data r1 = generate_aamva_data r2 := by
  subst hd
  subst hf
  exact ⟨rfl, fun r1 r2 hr => by rw [hr]⟩

theorem c9_witness :
    parse_aamva ("DCSDOE".data) FULL_FIELDS = parse_aamva ("DCSDOE".data) FULL_FIELDS :=
  (c9_deterministic ("DCSDOE".data) ("DCSDOE".data) FULL_FIELDS FULL_FIELDS rfl rfl).1

/-- C10: every entry of a parsed record has a key drawn from the field names of
the supplied mapping, and a value containing no carriage return and no line
feed, with neither leading nor trailing whitespace. -/
theorem c10_parse_invariants (d : List Char) (fields : List (String × String))
    (p : String × String) (hp : p ∈ parse_aamva d fields) :
    p.1 ∈ fields.map Prod.snd ∧
      (∀ c ∈ p.2.data, c ≠ '\n' ∧ c ≠ '\r') ∧
      (∀ c, p.2.data.head? = some c → pyIsSpace c = false) ∧
      (∀ c, p.2.data.getLast? = some c → pyIsSpace c = false) := by
  refine parse_foldl_inv d
    (fun q => q.1 ∈ fields.map Prod.snd ∧
      (∀ c ∈ q.2.data, c ≠ '\n' ∧ c ≠ '\r') ∧
      (∀ c, q.2.data.head? = some c → pyIsSpace c = false) ∧
      (∀ c, q.2.data.getLast? = some c → pyIsSpace c = false))
    fields [] (by simp) ?_ p hp
  intro kv hkv g hg
  refine ⟨List.mem_map.mpr ⟨kv, hkv, rfl⟩, ?_, ?_, ?_⟩
  · intro c hc
    have hfree := reSearchTag_run_free hg c (mem_pyStrip hc)
    simp only [isCRLF, Bool.or_eq_false_iff, decide_eq_false_iff_not] at hfree
    exact hfree
  · intro c hc
    exact pyStrip_head_not hc
  · intro c hc
    exact pyStrip_getLast_not hc

theorem c10_witness :
    ("LastName" : String) ∈ FULL_FIELDS.map Prod.snd ∧
      (∀ c ∈ ("DOE" : String).data, c ≠ '\n' ∧ c ≠ '\r') ∧
      (∀ c, ("DOE" : String).data.head? = some c → pyIsSpace c = false) ∧
      (∀ c, ("DOE" : String).data.getLast? = some c → pyIsSpace c = false) :=
  c10_parse_invariants ("DCS DOE ".data) FULL_FIELDS ("LastName", "DOE") (by decide)

/-! ### Auxiliaries for the round-trip claim -/

theorem str_data_append (s t : String) : (s ++ t).data = s.data ++ t.data := by
  cases s
  cases t
  rfl

theorem string_eq_of_data_eq {s t : String} (h : s.data = t.data) : s = t := by
  cases s
  cases t
  exact congrArg String.mk h

theorem string_mk_data (s : String) : String.mk s.data = s := by
  cases s
  rfl

theorem validMatch0_false_of_not_pref {pat s : List Char}
    (h : pat.isPrefixOf s = false) : validMatch0 pat s = false := by
  unfold validMatch0
  rw [h, Bool.false_and]

theorem searchLines_cons (key L : List Char) (ls : List (List Char)) :
    searchLines key (L :: ls) =
      match reSearchTag key L with
      | some g => some g
      | none => searchLines key ls := rfl

theorem aamva_lines_cons_some {cf : String × String} {rest data : List (String × String)}
    {w : String} (h : recLookup data cf.2 = some w) :
    aamva_lines (cf :: rest) data = (cf.1 ++ w) :: aamva_lines rest data := by
  unfold aamva_lines
  rw [List.filterMap_cons]
  simp only [h]

theorem aamva_lines_cons_none {cf : String × String} {rest data : List (String × String)}
    (h : recLookup data cf.2 = none) :
    aamva_lines (cf :: rest) data = aamva_lines rest data := by
  unfold aamva_lines
  rw [List.filterMap_cons]
  simp only [h]

theorem mem_aamva_lines {fields data : List (String × String)} {L : String}
    (h : L ∈ aamva_lines fields data) :
    ∃ cf ∈ fields, ∃ v, recLookup data cf.2 = some v ∧ L = cf.1 ++ v := by
  unfold aamva_lines at h
  rw [List.mem_filterMap] at h
  obtain ⟨cf, hcf, hmap⟩ := h
  cases hl : recLookup data cf.2 with
  | none =>
    rw [hl] at hmap
    simp at hmap
  | some v =>
    rw [hl] at hmap
    simp at hmap
    exact ⟨cf, hcf, v, hl, hmap.symm⟩

theorem aamva_lines_crlf_free {fields data : List (String × String)}
    (htags : ∀ cf ∈ fields, ∀ c ∈ cf.1.data, isCRLF c = false)
    (hvals : ∀ p ∈ data, ∀ c ∈ p.2.data, isCRLF c = false) :
    ∀ L ∈ aamva_lines fields data, ∀ c ∈ L.data, isCRLF c = false := by
  intro L hL c hc
  obtain ⟨cf, hcf, v, hv, rfl⟩ := mem_aamva_lines hL
  rw [str_data_append] at hc
  rcases List.mem_append.mp hc with h | h
  · exact htags cf hcf c h
  · exact hvals (cf.2, v) (recLookup_some_mem hv) c h

theorem nodup_fst_unique {fields : List (String × String)} {code n1 n2 : String}
    (hnodup : (fields.map Prod.fst).Nodup)
    (h1 : (code, n1) ∈ fields) (h2 : (code, n2) ∈ fields) : n1 = n2 := by
  induction fields with
  | nil => simp at h1
  | cons cf rest ih =>
    rw [List.map_cons, List.nodup_cons] at hnodup
    rcases List.mem_cons.mp h1 with e1 | t1
    · rcases List.mem_cons.mp h2 with e2 | t2
      · have h := e1.trans e2.symm
        simpa using h
      · exfalso
        apply hnodup.1
        rw [← e1]
        exact List.mem_map.mpr ⟨(code, n2), t2, rfl⟩
    · rcases List.mem_cons.mp h2 with e2 | t2
      · exfalso
        apply hnodup.1
        rw [← e2]
        exact List.mem_map.mpr ⟨(code, n1), t1, rfl⟩
      · exact ih hnodup.2 t1 t2

theorem reSearchTag_line_none {code w cfc : String}
    (hne : cfc ≠ code) (h3a : cfc.data.length = 3) (h3b : code.data.length = 3)
    (hocc : ∀ i, 0 < i → code.data.isPrefixOf (((cfc ++ w) : String).data.drop i) = false) :
    reSearchTag code.data ((cfc ++ w) : String).data = none := by
  rw [reSearchTag_eq_none_iff]
  intro o
  cases o with
  | zero =>
    rw [List.drop_zero]
    cases hv : validMatch0 code.data ((cfc ++ w) : String).data with
    | false => rfl
    | true =>
      exfalso
      have htake := isPrefixOf_take_eq (validMatch0_true_pref hv)
      rw [str_data_append] at htake
      have hlen_eq : cfc.data.length = code.data.length := by rw [h3a, h3b]
      rw [List.take_left' hlen_eq] at htake
      exact hne (string_eq_of_data_eq htake)
  | succ o' =>
    exact validMatch0_false_of_not_pref (hocc (o' + 1) (Nat.succ_pos o'))

theorem full_fields_tag_props :
    ∀ cf ∈ FULL_FIELDS, cf.1.data ≠ [] ∧ cf.1.data.length = 3 ∧
      (∀ c ∈ cf.1.data, isCRLF c = false) := by
  decide

theorem full_fields_fst_nodup : (FULL_FIELDS.map Prod.fst).Nodup := by decide

theorem full_fields_snd_nodup : (FULL_FIELDS.map Prod.snd).Nodup := by decide

theorem searchLines_some :
    ∀ (fields : List (String × String)) (data : List (String × String))
      (code name v : String),
      (code, name) ∈ fields →
      (fields.map Prod.fst).Nodup →
      (∀ cf ∈ fields, cf.1.data.length = 3) →
      code.data.length = 3 →
      recLookup data name = some v →
      v.data ≠ [] → (∀ c ∈ v.data, isCRLF c = false) →
      (∀ L ∈ aamva_lines fields data, ∀ i, 0 < i →
        code.data.isPrefixOf (L.data.drop i) = false) →
      searchLines code.data ((aamva_lines fields data).map String.data) = some v.data := by
  intro fields
  induction fields with
  | nil =>
    intro data code name v hmem
    intro _ _ _ _ _ _ _
    simp at hmem
  | cons cf rest ih =>
    intro data code name v hmem hnodup h3 h3c hlook hvne hvfree hocc
    rw [List.map_cons, List.nodup_cons] at hnodup
    have hocc_rest : ∀ L ∈ aamva_lines rest data, ∀ i, 0 < i →
        code.data.isPrefixOf (L.data.drop i) = false := by
      intro L hL i hi
      refine hocc L ?_ i hi
      cases hl : recLookup data cf.2 with
      | some w =>
        rw [aamva_lines_cons_some hl]
        exact List.mem_cons_of_mem _ hL
      | none =>
        rw [aamva_lines_cons_none hl]
        exact hL
    rcases List.mem_cons.mp hmem with heq | htail
    · have hc1 : cf.1 = code := by rw [← heq]
      have hc2 : cf.2 = name := by rw [← heq]
      have hl : recLookup data cf.2 = some v := by rw [hc2]; exact hlook
      rw [aamva_lines_cons_some hl, List.map_cons, searchLines_cons]
      have hdata : ((cf.1 ++ v) : String).data = code.data ++ v.data := by
        rw [hc1, str_data_append]
      rw [hdata]
      have hne : code.data ≠ [] := by
        intro h0
        rw [h0] at h3c
        simp at h3c
      rw [reSearchTag_self_append hne hvne hvfree]
    · cases hl : recLookup data cf.2 with
      | none =>
        rw [aamva_lines_cons_none hl]
        exact ih data code name v htail hnodup.2
          (fun cf' h' => h3 cf' (List.mem_cons_of_mem _ h')) h3c hlook hvne hvfree hocc_rest
      | some w =>
        rw [aamva_lines_cons_some hl, List.map_cons, searchLines_cons]
        have hcne : cf.1 ≠ code := by
          intro hEq
          exact hnodup.1 (hEq ▸ List.mem_map.mpr ⟨(code, name), htail, rfl⟩)
        have hoccL : ∀ i, 0 < i →
            code.data.isPrefixOf (((cf.1 ++ w) : String).data.drop i) = false := by
          intro i hi
          refine hocc (cf.1 ++ w) ?_ i hi
          rw [aamva_lines_cons_some hl]
          exact List.mem_cons_self _ _
        rw [reSearchTag_line_none hcne (h3 cf (List.mem_cons_self cf rest)) h3c hoccL]
        exact ih data code name v htail hnodup.2
          (fun cf' h' => h3 cf' (List.mem_cons_of_mem _ h')) h3c hlook hvne hvfree hocc_rest

theorem searchLines_none :
    ∀ (fields : List (String × String)) (data : List (String × String)) (code : String),
      code.data.length = 3 →
      (∀ cf ∈ fields, cf.1.data.length = 3) →
      (∀ cf ∈ fields, cf.1 = code → recLookup data cf.2 = none) →
      (∀ L ∈ aamva_lines fields data, ∀ i, 0 < i →
        code.data.isPrefixOf (L.data.drop i) = false) →
      searchLines code.data ((aamva_lines fields data).map String.data) = none := by
  intro fields
  induction fields with
  | nil => intro data code _ _ _ _; rfl
  | cons cf rest ih =>
    intro data code h3c h3 habs hocc
    have hocc_rest : ∀ L ∈ aamva_lines rest data, ∀ i, 0 < i →
        code.data.isPrefixOf (L.data.drop i) = false := by
      intro L hL i hi
      refine hocc L ?_ i hi
      cases hl : recLookup data cf.2 with
      | some w =>
        rw [aamva_lines_cons_some hl]
        exact List.mem_cons_of_mem _ hL
      | none =>
        rw [aamva_lines_cons_none hl]
        exact hL
    cases hl : recLookup data cf.2 with
    | none =>
      rw [aamva_lines_cons_none hl]
      exact ih data code h3c (fun cf' h' => h3 cf' (List.mem_cons_of_mem _ h'))
        (fun cf' h' hc => habs cf' (List.mem_cons_of_mem _ h') hc) hocc_rest
    | some w =>
      rw [aamva_lines_cons_some hl, List.map_cons, searchLines_cons]
      have hcne : cf.1 ≠ code := by
        intro hEq
        have hnone := habs cf (List.mem_cons_self cf rest) hEq
        rw [hnone] at hl
        simp at hl
      have hoccL : ∀ i, 0 < i →
          code.data.isPrefixOf (((cf.1 ++ w) : String).data.drop i) = false := by
        intro i hi
        refine hocc (cf.1 ++ w) ?_ i hi
        rw [aamva_lines_cons_some hl]
        exact List.mem_cons_self _ _
      rw [reSearchTag_line_none hcne (h3 cf (List.mem_cons_self cf rest)) h3c hoccL]
      exact ih data code h3c (fun cf' h' => h3 cf' (List.mem_cons_of_mem _ h'))
        (fun cf' h' hc => habs cf' (List.mem_cons_of_mem _ h') hc) hocc_rest

/-- C1 counterexample: the record with MiddleName = "CSX" is built only from
registered tags and its value contains no registered tag code as a substring,
yet the serialized payload is "DADCSX", in which a phantom DCS occurrence
straddles the DAD tag and the value; parsing therefore invents an extra
LastName field and the round trip fails. -/
theorem c1_counterexample :
    (∀ p ∈ [(("MiddleName" : String), ("CSX" : String))], p.1 ∈ FULL_FIELDS.map Prod.snd) ∧
      (∀ p ∈ [(("MiddleName" : String), ("CSX" : String))],
        ∀ cf ∈ FULL_FIELDS, containsSub cf.1.data p.2.data = false) ∧
      recLookup (parse_aamva (generate_aamva_data [("MiddleName", "CSX")]) FULL_FIELDS)
          "LastName" = some "X" ∧
      recLookup [(("MiddleName" : String), ("CSX" : String))] "LastName" = none := by
  decide

/-- C1 (amended): for every record whose keys are registered field names and
whose values are nonempty, free of carriage returns and line feeds, and
invariant under stripping, and such that in the serialized line list no
registered tag code occurs at a nonzero offset of any line (ruling out values
that recreate a tag across or inside a line, which the naive no-tag-substring
condition does not), parsing the serialized payload with the same field
mapping returns exactly the original record as a mapping. -/
theorem c1_roundtrip_amended (data : List (String × String))
    (hkeys : ∀ p ∈ data, p.1 ∈ FULL_FIELDS.map Prod.snd)
    (hvals : ∀ p ∈ data, p.2.data ≠ [] ∧ (∀ c ∈ p.2.data, isCRLF c = false) ∧
      pyStrip p.2.data = p.2.data)
    (hocc : ∀ cf ∈ FULL_FIELDS, ∀ L ∈ aamva_lines FULL_FIELDS data,
      ∀ i < L.data.length, 0 < i → cf.1.data.isPrefixOf (L.data.drop i) = false) :
    ∀ f, recLookup (parse_aamva (generate_aamva_data data) FULL_FIELDS) f =
      recLookup data f := by
  intro f
  by_cases hf : f ∈ FULL_FIELDS.map Prod.snd
  case neg =>
    rw [parse_aamva_lookup_none _ FULL_FIELDS f hf]
    cases hd : recLookup data f with
    | none => rfl
    | some v => exact absurd (hkeys (f, v) (recLookup_some_mem hd)) hf
  case pos =>
    obtain ⟨cf, hcf, hcf2⟩ := List.mem_map.mp hf
    have hmem : (cf.1, f) ∈ FULL_FIELDS := by
      rw [← hcf2, Prod.mk.eta]
      exact hcf
    rw [parse_aamva_lookup (generate_aamva_data data) FULL_FIELDS cf.1 f
      full_fields_snd_nodup hmem]
    have hlines_free : ∀ L ∈ (aamva_lines FULL_FIELDS data).map String.data,
        ∀ c ∈ L, isCRLF c = false := by
      intro L hL
      obtain ⟨Ls, hLs, rfl⟩ := List.mem_map.mp hL
      exact aamva_lines_crlf_free (fun cf' h' => (full_fields_tag_props cf' h').2.2)
        (fun p hp => (hvals p hp).2.1) Ls hLs
    have hpat_free : ∀ c ∈ cf.1.data, isCRLF c = false :=
      (full_fields_tag_props cf hcf).2.2
    have hjoin := reSearchTag_joinCR hpat_free
      ((aamva_lines FULL_FIELDS data).map String.data) hlines_free
    unfold generate_aamva_data
    rw [hjoin]
    have hocc' : ∀ cf' ∈ FULL_FIELDS, ∀ L ∈ aamva_lines FULL_FIELDS data, ∀ i, 0 < i →
        cf'.1.data.isPrefixOf (L.data.drop i) = false := by
      intro cf' hcf' L hL i hi
      by_cases hlen : i < L.data.length
      · exact hocc cf' hcf' L hL i hlen hi
      · rw [List.drop_eq_nil_of_le (Nat.le_of_not_lt hlen)]
        have hne := (full_fields_tag_props cf' hcf').1
        cases hcd : cf'.1.data with
        | nil => exact absurd hcd hne
        | cons a as => rfl
    cases hd : recLookup data f with
    | some v =>
      have hvp := hvals (f, v) (recLookup_some_mem hd)
      rw [searchLines_some FULL_FIELDS data cf.1 f v hmem full_fields_fst_nodup
        (fun cf' h' => (full_fields_tag_props cf' h').2.1)
        ((full_fields_tag_props cf hcf).2.1)
        hd hvp.1 hvp.2.1 (hocc' cf hcf)]
      show some (String.mk (pyStrip v.data)) = some v
      rw [hvp.2.2, string_mk_data]
    | none =>
      have habs : ∀ cf' ∈ FULL_FIELDS, cf'.1 = cf.1 → recLookup data cf'.2 = none := by
        intro cf' hcf' hEq
        have h1 : (cf.1, cf'.2) ∈ FULL_FIELDS := by
          rw [← hEq, Prod.mk.eta]
          exact hcf'
        have hname_eq : cf'.2 = f := nodup_fst_unique full_fields_fst_nodup h1 hmem
        rw [hname_eq]
        exact hd
      rw [searchLines_none FULL_FIELDS data cf.1 ((full_fields_tag_props cf hcf).2.1)
        (fun cf' h' => (full_fields_tag_props cf' h').2.1) habs (hocc' cf hcf)]
      rfl

theorem c1_witness :
    recLookup (parse_aamva
        (generate_aamva_data [("LastName", "DOE"), ("FirstName", "JOHN")]) FULL_FIELDS)
        "LastName" =
      recLookup [(("LastName" : String), ("DOE" : String)), ("FirstName", "JOHN")]
        "LastName" :=
  c1_roundtrip_amended [("LastName", "DOE"), ("FirstName", "JOHN")]
    (by decide) (by decide) (by decide) "LastName"
